import Mathlib

/-!
# Verification of the BEE URL-shortener core

A shallow embedding of the short-code allocation and redirect-counting
subsystem of the BEE URL shortener (`server.js` and the Mongoose
`UrlSchema`), together with theorems settling the specified properties.

The Link Store is modelled as a list of documents in insertion order;
MongoDB operations (`findOne`, `create`, `$inc`, `findOneAndDelete`)
become explicit functions on that list.  The random source behind
`Math.random()` is modelled as a stream of draws in `Fin 62`, one per
`chars.charAt(Math.floor(Math.random() * chars.length))` call.
-/

namespace BEE

/-- The code-generation alphabet from `POST /shorten` in server.js:
62 symbols, uppercase letters then lowercase letters then digits. -/
def chars : String := "ABCDEFGHIJKLMNOPQRSTUVWXYZabcdefghijklmnopqrstuvwxyz0123456789"

/-- One stored shortened URL, following the Mongoose `UrlSchema`
(`fullUrl`, `shortUrl` with a unique index, `user`, `clicks` with
default 0). -/
structure Link where
  fullUrl : String
  shortUrl : String
  user : String
  clicks : Nat
deriving Repr, DecidableEq

/-- The Link Store: the collection of stored Url documents, in insertion
order. -/
abbrev Store := List Link

/-- The list of short codes currently stored. -/
def codes (s : Store) : List String := s.map (·.shortUrl)

/-- Model of `Url.findOne({ shortUrl: code })`: the first stored Link with the given
code. -/
def findOne (s : Store) (code : String) : Option Link :=
  s.find? (fun l => l.shortUrl == code)

/-- Model of `Url.create({ fullUrl, shortUrl, user })`: inserts a new document;
`clicks` takes its schema default 0. -/
def createLink (s : Store) (fullUrl code user : String) : Store :=
  s ++ [{ fullUrl := fullUrl, shortUrl := code, user := user, clicks := 0 }]

/-- Model of `generateCode()` from server.js: six characters, each chosen by
`chars.charAt(Math.floor(Math.random() * chars.length))`.  The random
source is modelled as a stream `r` of draws in `Fin 62`; generator call
number `k` consumes draws `6*k` through `6*k+5`. -/
def generateCode (r : Nat → Fin 62) (k : Nat) : String :=
  String.mk ((List.range 6).map fun i => chars.toList.getD (r (6 * k + i)).val 'A')

/-- The `do { ... } while (exists && attempts < 5)` retry loop of the
random path: `attempt` is the index of the next generator call, `fuel`
the number of attempts still allowed.  Returns the first available
candidate, or `none` when every allowed attempt found its candidate
taken. -/
def tryAttempts (s : Store) (r : Nat → Fin 62) : Nat → Nat → Option String
  | _, 0 => none
  | attempt, fuel + 1 =>
    let short := generateCode r attempt
    if (findOne s short).isSome then
      tryAttempts s r (attempt + 1) fuel
    else
      some short

/-- Outcome of `POST /shorten`. -/
inductive ShortenResult where
  /-- A Link with this code was created. -/
  | created (code : String)
  /-- Outcome `res.send('Custom alias already taken')`. -/
  | aliasTaken
  /-- Outcome `res.send('Could not generate unique short URL, try again')`. -/
  | exhausted
  /-- Outcome of `if (!fullUrl) return res.redirect('/dashboard')`. -/
  | missingUrl
deriving Repr, DecidableEq

/-- Whitespace as stripped by JavaScript `String.prototype.trim`, per
ECMA-262 TrimString: the WhiteSpace production (TAB, VT, FF, SP, NBSP,
ZWNBSP and the Unicode space-separator category Zs, namely U+0020,
U+00A0, U+1680, U+2000 through U+200A, U+202F, U+205F, U+3000) together
with the LineTerminator production (LF, CR, LS U+2028, PS U+2029). -/
def isJsWhitespace (c : Char) : Bool :=
  c == ' ' || c == '\t' || c == '\n' || c == '\r' ||
  c == '\x0b' || c == '\x0c' ||
  c == '\u00A0' || c == '\uFEFF' ||
  c == '\u2028' || c == '\u2029' ||
  c == '\u1680' || (0x2000 ≤ c.toNat && c.toNat ≤ 0x200A) ||
  c == '\u202F' || c == '\u205F' || c == '\u3000'

/-- Model of JavaScript `String.prototype.trim`: drops leading and
trailing whitespace. -/
def jsTrim (s : String) : String :=
  String.mk (((s.toList.dropWhile isJsWhitespace).reverse.dropWhile isJsWhitespace).reverse)

/-- Model of `custom && custom.trim() ? custom.trim() : null` from server.js: the
effective custom alias, if one was supplied and is non-blank after
trimming. -/
def trimmedAlias (custom : Option String) : Option String :=
  match custom with
  | none => none
  | some c => if jsTrim c = "" then none else some (jsTrim c)

/-- Model of `POST /shorten` from server.js: presence check on `fullUrl`, then
either the custom-alias path (one availability check) or the random path
(the bounded retry loop), then `Url.create`. -/
def shorten (s : Store) (fullUrl : String) (custom : Option String) (user : String)
    (r : Nat → Fin 62) : ShortenResult × Store :=
  if fullUrl = "" then (ShortenResult.missingUrl, s)
  else
    match trimmedAlias custom with
    | some short =>
      if (findOne s short).isSome then (ShortenResult.aliasTaken, s)
      else (ShortenResult.created short, createLink s fullUrl short user)
    | none =>
      match tryAttempts s r 0 5 with
      | none => (ShortenResult.exhausted, s)
      | some short => (ShortenResult.created short, createLink s fullUrl short user)

/-- Outcome of `GET /:short`. -/
inductive ResolveResult where
  | redirect (url : String)
  | notFound
deriving Repr, DecidableEq

/-- Model of `Url.findByIdAndUpdate(url._id, { $inc: { clicks: 1 } })`, where
`url` was found by code: bumps the clicks of the first Link with the
code, leaving every other document untouched. -/
def incClicksFirst : Store → String → Store
  | [], _ => []
  | l :: ls, code =>
    if l.shortUrl == code then { l with clicks := l.clicks + 1 } :: ls
    else l :: incClicksFirst ls code

/-- Model of `GET /:short` from server.js (`resolveAndCount`): look the code up;
absent means `'URL not found'`; present means one atomic `$inc` of that
Link's clicks followed by a redirect to its `fullUrl`. -/
def resolveAndCount (s : Store) (code : String) : ResolveResult × Store :=
  match findOne s code with
  | none => (ResolveResult.notFound, s)
  | some url => (ResolveResult.redirect url.fullUrl, incClicksFirst s code)

/-- Model of `Url.findOneAndDelete({ _id: id, user: req.user.id })` from
`POST /delete/:id`: removes the matching document, here identified by
its code and owner. -/
def deleteFirst : Store → String → String → Store
  | [], _, _ => []
  | l :: ls, code, user =>
    if l.shortUrl == code && l.user == user then ls
    else l :: deleteFirst ls code user

/-- The clicks of the Link stored under a code, when present. -/
def clicksOf (s : Store) (code : String) : Option Nat :=
  (findOne s code).map (·.clicks)

/-- One request-level operation of the core, as dispatched by the
Express routes of server.js. -/
inductive Op where
  /-- Route `POST /shorten`. -/
  | shortenOp (fullUrl : String) (custom : Option String) (user : String) (r : Nat → Fin 62)
  /-- Route `GET /:short`. -/
  | resolveOp (code : String)
  /-- Route `POST /delete/:id`. -/
  | deleteOp (code user : String)
  /-- Query `Url.find({ user })`, the read-only per-owner dashboard listing. -/
  | listOp (user : String)

/-- The store after one operation. -/
def applyOp (s : Store) : Op → Store
  | Op.shortenOp fu c u r => (shorten s fu c u r).2
  | Op.resolveOp code => (resolveAndCount s code).2
  | Op.deleteOp code user => deleteFirst s code user
  | Op.listOp _ => s

/-- A sequential run of the system from the empty store. -/
def run (ops : List Op) : Store := ops.foldl applyOp []

/-- An atomic write to MongoDB, honouring the `unique: true` index on
`shortUrl`: an insert whose code is already present is rejected by the
index and leaves the store unchanged. -/
def createIfAvailable (s : Store) (fullUrl code user : String) : Store :=
  if (findOne s code).isSome then s else createLink s fullUrl code user

/-- One atomic store-level event, the unit of interleaving under
concurrent requests: each MongoDB call in server.js is one such event. -/
inductive StoreEvent where
  /-- A `findOne` read; no state change. -/
  | findEv (code : String)
  /-- A `create`, subject to the unique index on `shortUrl`. -/
  | createEv (fullUrl code user : String)
  /-- One atomic `$inc: { clicks: 1 }`. -/
  | incEv (code : String)
  /-- A `findOneAndDelete` by code and owner. -/
  | deleteEv (code user : String)
deriving Repr, DecidableEq

/-- The store after one atomic event. -/
def applyEvent (s : Store) : StoreEvent → Store
  | StoreEvent.findEv _ => s
  | StoreEvent.createEv fu c u => createIfAvailable s fu c u
  | StoreEvent.incEv c => incClicksFirst s c
  | StoreEvent.deleteEv c u => deleteFirst s c u

/-- The store after a sequence of atomic events (one interleaving of
concurrent requests). -/
def runEvents (s : Store) (evts : List StoreEvent) : Store :=
  evts.foldl applyEvent s

/-- The reserved aliases of the specified alias policy: the documented
reserved words plus the path segments server.js statically routes. -/
def reservedAliases : List String :=
  ["api", "admin", "www", "login", "register", "dashboard", "shorten", "delete", "logout"]

/-- ASCII lowercasing, character by character. -/
def lowerAscii (s : String) : String := String.mk (s.toList.map Char.toLower)

/-- The specified Alias Validator policy (spec §4.2), stated for
comparison with the implementation: length between 2 and 20, every
character in `[A-Za-z0-9_-]`, lowercased value not reserved. -/
def aliasPolicyOk (a : String) : Bool :=
  2 ≤ a.length && a.length ≤ 20 &&
  a.toList.all (fun c => c.isAlphanum || c == '_' || c == '-') &&
  !(reservedAliases.contains (lowerAscii a))

/-- The specified target-URL policy (spec §3), stated for comparison
with the implementation: a well-formed absolute URL with http or https
scheme. -/
def validTargetUrlSpec (u : String) : Bool :=
  ("http://".toList.isPrefixOf u.toList && decide (7 < u.length)) ||
  ("https://".toList.isPrefixOf u.toList && decide (8 < u.length))

/-- The all-zero random stream, used to instantiate theorems at concrete
inputs. -/
def rZero : Nat → Fin 62 := fun _ => ⟨0, by omega⟩

/-! ## Basic lemmas about the store operations -/

theorem findOne_cons (x : Link) (xs : Store) (c : String) :
    findOne (x :: xs) c = if x.shortUrl = c then some x else findOne xs c := by
  by_cases h : x.shortUrl = c
  · simp [findOne, List.find?_cons_of_pos, h]
  · simp [findOne, List.find?_cons_of_neg, h]

theorem incClicksFirst_cons (x : Link) (xs : Store) (c : String) :
    incClicksFirst (x :: xs) c =
      if x.shortUrl = c then { x with clicks := x.clicks + 1 } :: xs
      else x :: incClicksFirst xs c := by
  by_cases h : x.shortUrl = c <;> simp [incClicksFirst, h]

theorem findOne_eq_none_iff (s : Store) (c : String) :
    findOne s c = none ↔ c ∉ codes s := by
  rw [findOne, List.find?_eq_none]
  constructor
  · intro h hc
    rcases List.mem_map.mp hc with ⟨l, hl, hlc⟩
    have := h l hl
    simp only [beq_iff_eq] at this
    exact this hlc
  · intro h l hl
    simp only [beq_iff_eq]
    intro hlc
    exact h (List.mem_map.mpr ⟨l, hl, hlc⟩)

theorem findOne_some_spec {s : Store} {c : String} {l : Link}
    (h : findOne s c = some l) : l ∈ s ∧ l.shortUrl = c := by
  refine ⟨List.mem_of_find?_eq_some h, ?_⟩
  have := List.find?_some h
  simpa using this

theorem findOne_createLink_self {s : Store} {c : String} (fu u : String)
    (h : findOne s c = none) :
    findOne (createLink s fu c u) c =
      some { fullUrl := fu, shortUrl := c, user := u, clicks := 0 } := by
  rw [createLink, findOne, List.find?_append]
  rw [findOne] at h
  rw [h]
  simp

theorem findOne_createLink_of_ne {s : Store} {c c2 : String} (fu u : String)
    (h : c2 ≠ c) :
    findOne (createLink s fu c2 u) c = findOne s c := by
  simp only [createLink, findOne, List.find?_append]
  have : List.find? (fun l => l.shortUrl == c)
      [({ fullUrl := fu, shortUrl := c2, user := u, clicks := 0 } : Link)] = none := by
    simp [h]
  rw [this]
  cases List.find? (fun l => l.shortUrl == c) s <;> rfl

theorem codes_createLink (s : Store) (fu c u : String) :
    codes (createLink s fu c u) = codes s ++ [c] := by
  simp [createLink, codes]

theorem incClicksFirst_of_none {s : Store} {c : String}
    (h : findOne s c = none) : incClicksFirst s c = s := by
  induction s with
  | nil => rfl
  | cons x xs ih =>
    rw [findOne_cons] at h
    by_cases hx : x.shortUrl = c
    · simp [hx] at h
    · simp only [hx, if_neg, reduceIte] at h
      simp [incClicksFirst_cons, hx, ih h]

theorem findOne_incClicksFirst_of_ne {s : Store} {c c2 : String} (h : c2 ≠ c) :
    findOne (incClicksFirst s c2) c = findOne s c := by
  induction s with
  | nil => rfl
  | cons x xs ih =>
    by_cases h2 : x.shortUrl = c2
    · have hxc : x.shortUrl ≠ c := by rw [h2]; exact h
      simp [incClicksFirst_cons, h2, findOne_cons, hxc, h]
    · by_cases h3 : x.shortUrl = c
      · simp [incClicksFirst_cons, h2, findOne_cons, h3, Ne.symm h]
      · simp [incClicksFirst_cons, h2, findOne_cons, h3, ih]

theorem findOne_incClicksFirst_self {s : Store} {c : String} {l : Link}
    (h : findOne s c = some l) :
    findOne (incClicksFirst s c) c = some { l with clicks := l.clicks + 1 } := by
  induction s with
  | nil => simp [findOne] at h
  | cons x xs ih =>
    rw [findOne_cons] at h
    by_cases hx : x.shortUrl = c
    · rw [if_pos hx] at h
      cases h
      simp [incClicksFirst_cons, hx, findOne_cons]
    · rw [if_neg hx] at h
      simp [incClicksFirst_cons, hx, findOne_cons, ih h]

theorem codes_incClicksFirst (s : Store) (c : String) :
    codes (incClicksFirst s c) = codes s := by
  induction s with
  | nil => rfl
  | cons x xs ih =>
    by_cases hx : x.shortUrl = c
    · simp [incClicksFirst_cons, hx, codes]
    · simp only [incClicksFirst_cons, hx, if_neg, reduceIte, codes, List.map_cons]
      simp only [codes] at ih
      rw [ih]

theorem deleteFirst_sublist (s : Store) (c u : String) :
    (deleteFirst s c u).Sublist s := by
  induction s with
  | nil => simp [deleteFirst]
  | cons x xs ih =>
    by_cases hx : (x.shortUrl == c && x.user == u) = true
    · simp only [deleteFirst, hx, reduceIte]
      exact (List.sublist_cons_self x xs)
    · simp only [deleteFirst, hx]
      simp only [Bool.not_eq_true] at hx
      rw [if_neg (by simp_all)]
      exact List.Sublist.cons₂ x ih

theorem findOne_deleteFirst_of_ne {s : Store} {c c2 : String} (u : String)
    (h : c2 ≠ c) :
    findOne (deleteFirst s c2 u) c = findOne s c := by
  induction s with
  | nil => rfl
  | cons x xs ih =>
    by_cases hm : (x.shortUrl == c2 && x.user == u) = true
    · have hxc : x.shortUrl ≠ c := by
        rcases Bool.and_eq_true_iff.mp hm with ⟨h1, _⟩
        have : x.shortUrl = c2 := by simpa using h1
        rw [this]; exact h
      simp only [deleteFirst, hm, reduceIte]
      simp [findOne_cons, hxc]
    · simp only [deleteFirst, hm]
      rw [if_neg (by simp_all)]
      by_cases h3 : x.shortUrl = c <;> simp [findOne_cons, h3, ih]

/-! ## The code generator and the bounded retry loop -/

theorem chars_toList_length : chars.toList.length = 62 := by decide

theorem generateCode_length (r : Nat → Fin 62) (k : Nat) :
    (generateCode r k).length = 6 := by
  show ((List.range 6).map _).length = 6
  simp

theorem generateCode_mem_chars {r : Nat → Fin 62} {k : Nat} {ch : Char}
    (h : ch ∈ (generateCode r k).toList) : ch ∈ chars.toList := by
  have h' : ch ∈ (List.range 6).map
      (fun i => chars.toList.getD (r (6 * k + i)).val 'A') := h
  rcases List.mem_map.mp h' with ⟨i, _, rfl⟩
  have hlt : (r (6 * k + i)).val < chars.toList.length := by
    rw [chars_toList_length]; exact (r (6 * k + i)).isLt
  rw [List.getD_eq_getElem _ _ hlt]
  exact List.getElem_mem _

theorem tryAttempts_some {s : Store} {r : Nat → Fin 62} :
    ∀ {f a c}, tryAttempts s r a f = some c →
      findOne s c = none ∧ ∃ k, a ≤ k ∧ k < a + f ∧ c = generateCode r k := by
  intro f
  induction f with
  | zero => intro a c h; simp [tryAttempts] at h
  | succ f ih =>
    intro a c h
    simp only [tryAttempts] at h
    by_cases hf : (findOne s (generateCode r a)).isSome
    · rw [if_pos hf] at h
      obtain ⟨h1, k, hk1, hk2, hk3⟩ := ih h
      exact ⟨h1, k, by omega, by omega, hk3⟩
    · rw [if_neg hf] at h
      cases h
      exact ⟨Option.not_isSome_iff_eq_none.mp hf, a, le_refl a, by omega, rfl⟩

theorem tryAttempts_none_of_taken {s : Store} {r : Nat → Fin 62} :
    ∀ {f a}, (∀ k, k < f → (findOne s (generateCode r (a + k))).isSome) →
      tryAttempts s r a f = none := by
  intro f
  induction f with
  | zero => intro a _; rfl
  | succ f ih =>
    intro a h
    have h0 : (findOne s (generateCode r a)).isSome := by
      simpa using h 0 (by omega)
    simp only [tryAttempts, h0, if_pos]
    exact ih fun k hk => by
      rw [show a + 1 + k = a + (k + 1) by omega]
      exact h (k + 1) (by omega)

theorem tryAttempts_first {s : Store} {r : Nat → Fin 62} :
    ∀ {f a k}, k < f → (findOne s (generateCode r (a + k))).isSome = false →
      (∀ j, j < k → (findOne s (generateCode r (a + j))).isSome) →
      tryAttempts s r a f = some (generateCode r (a + k)) := by
  intro f
  induction f with
  | zero => intro a k hk; exact absurd hk (by omega)
  | succ f ih =>
    intro a k hk havail htaken
    cases k with
    | zero =>
      simp only [Nat.add_zero] at havail
      simp [tryAttempts, havail]
    | succ k =>
      have h0 : (findOne s (generateCode r a)).isSome := by
        simpa using htaken 0 (by omega)
      simp only [tryAttempts, h0, if_pos]
      have hmain := ih (a := a + 1) (k := k) (by omega)
        (by rw [show a + 1 + k = a + (k + 1) by omega]; exact havail)
        (fun j hj => by
          rw [show a + 1 + j = a + (j + 1) by omega]
          exact htaken (j + 1) (by omega))
      rw [hmain, show a + 1 + k = a + (k + 1) by omega]

theorem generateCode_congr {r r' : Nat → Fin 62} {k : Nat}
    (h : ∀ i, i < 6 → r (6 * k + i) = r' (6 * k + i)) :
    generateCode r k = generateCode r' k := by
  simp only [generateCode]
  congr 1
  apply List.map_congr_left
  intro i hi
  rw [h i (by simpa using hi)]

theorem tryAttempts_congr {s : Store} {r r' : Nat → Fin 62} :
    ∀ {f a}, (∀ i, 6 * a ≤ i → i < 6 * (a + f) → r i = r' i) →
      tryAttempts s r a f = tryAttempts s r' a f := by
  intro f
  induction f with
  | zero => intro a _; rfl
  | succ f ih =>
    intro a h
    have hg : generateCode r a = generateCode r' a :=
      generateCode_congr fun i hi => h _ (by omega) (by omega)
    simp only [tryAttempts, hg]
    by_cases hf : (findOne s (generateCode r' a)).isSome
    · simp only [hf, if_pos]
      exact ih fun i h1 h2 => h i (by omega) (by omega)
    · simp [hf]

/-! ## Unfolding lemmas for `shorten` -/

theorem shorten_custom_taken {s : Store} {fu u a : String} {cu : Option String}
    {r : Nat → Fin 62} (hfu : fu ≠ "") (hta : trimmedAlias cu = some a)
    (hf : (findOne s a).isSome) :
    shorten s fu cu u r = (ShortenResult.aliasTaken, s) := by
  simp [shorten, hfu, hta, hf]

theorem shorten_custom_available {s : Store} {fu u a : String} {cu : Option String}
    {r : Nat → Fin 62} (hfu : fu ≠ "") (hta : trimmedAlias cu = some a)
    (hf : findOne s a = none) :
    shorten s fu cu u r = (ShortenResult.created a, createLink s fu a u) := by
  simp [shorten, hfu, hta, hf]

theorem shorten_random_exhausted {s : Store} {fu u : String} {cu : Option String}
    {r : Nat → Fin 62} (hfu : fu ≠ "") (hta : trimmedAlias cu = none)
    (ht : tryAttempts s r 0 5 = none) :
    shorten s fu cu u r = (ShortenResult.exhausted, s) := by
  simp [shorten, hfu, hta, ht]

theorem shorten_random_created {s : Store} {fu u c : String} {cu : Option String}
    {r : Nat → Fin 62} (hfu : fu ≠ "") (hta : trimmedAlias cu = none)
    (ht : tryAttempts s r 0 5 = some c) :
    shorten s fu cu u r = (ShortenResult.created c, createLink s fu c u) := by
  simp [shorten, hfu, hta, ht]

theorem shorten_created_inv {s : Store} {fu u c : String} {cu : Option String}
    {r : Nat → Fin 62} {s' : Store}
    (h : shorten s fu cu u r = (ShortenResult.created c, s')) :
    fu ≠ "" ∧ findOne s c = none ∧ s' = createLink s fu c u := by
  by_cases hfu : fu = ""
  · simp [shorten, hfu] at h
  · refine ⟨hfu, ?_⟩
    cases hta : trimmedAlias cu with
    | some a =>
      by_cases hf : (findOne s a).isSome
      · rw [shorten_custom_taken hfu hta hf] at h; simp at h
      · have hnone := Option.not_isSome_iff_eq_none.mp hf
        rw [shorten_custom_available hfu hta hnone] at h
        simp only [Prod.mk.injEq, ShortenResult.created.injEq] at h
        obtain ⟨rfl, rfl⟩ := h
        exact ⟨hnone, rfl⟩
    | none =>
      cases ht : tryAttempts s r 0 5 with
      | none => rw [shorten_random_exhausted hfu hta ht] at h; simp at h
      | some a =>
        rw [shorten_random_created hfu hta ht] at h
        simp only [Prod.mk.injEq, ShortenResult.created.injEq] at h
        obtain ⟨rfl, rfl⟩ := h
        exact ⟨(tryAttempts_some ht).1, rfl⟩

theorem shorten_store_cases (s : Store) (fu u : String) (cu : Option String)
    (r : Nat → Fin 62) :
    (shorten s fu cu u r).2 = s ∨
    ∃ c, findOne s c = none ∧ (shorten s fu cu u r).2 = createLink s fu c u := by
  by_cases hfu : fu = ""
  · left; simp [shorten, hfu]
  · rw [shorten, if_neg hfu]
    cases hta : trimmedAlias cu with
    | some a =>
      by_cases hf : (findOne s a).isSome
      · left; simp [hf]
      · right
        exact ⟨a, Option.not_isSome_iff_eq_none.mp hf, by simp [hf]⟩
    | none =>
      cases ht : tryAttempts s r 0 5 with
      | none => left; simp
      | some a => right; exact ⟨a, (tryAttempts_some ht).1, by simp⟩

/-! ## Click counts under the store operations -/

theorem codes_resolveAndCount (s : Store) (c : String) :
    codes (resolveAndCount s c).2 = codes s := by
  rw [resolveAndCount]
  cases h : findOne s c <;> simp [codes_incClicksFirst]

theorem clicksOf_incClicksFirst_self {s : Store} {c : String} {n : Nat}
    (h : clicksOf s c = some n) :
    clicksOf (incClicksFirst s c) c = some (n + 1) := by
  rw [clicksOf] at h
  cases hf : findOne s c with
  | none => rw [hf] at h; simp at h
  | some l =>
    rw [hf] at h
    simp only [Option.map_some', Option.some.injEq] at h
    rw [clicksOf, findOne_incClicksFirst_self hf]
    simp [h]

theorem clicksOf_incClicksFirst_of_ne {s : Store} {c c2 : String} (h : c2 ≠ c) :
    clicksOf (incClicksFirst s c2) c = clicksOf s c := by
  rw [clicksOf, clicksOf, findOne_incClicksFirst_of_ne h]

theorem clicksOf_createLink_of_ne {s : Store} {c c2 : String} (fu u : String)
    (h : c2 ≠ c) :
    clicksOf (createLink s fu c2 u) c = clicksOf s c := by
  rw [clicksOf, clicksOf, findOne_createLink_of_ne fu u h]

theorem clicksOf_deleteFirst_self {c user : String} :
    ∀ {s : Store} {n n' : Nat}, (codes s).Nodup →
      clicksOf s c = some n → clicksOf (deleteFirst s c user) c = some n' →
      n' = n := by
  intro s
  induction s with
  | nil => intro n n' _ h _; simp [clicksOf, findOne] at h
  | cons x xs ih =>
    intro n n' hnd h h'
    have hnd' : (codes xs).Nodup :=
      (List.nodup_cons.mp (by simpa [codes] using hnd)).2
    by_cases hx : x.shortUrl = c
    · have hxs : c ∉ codes xs := by
        rw [← hx]
        exact (List.nodup_cons.mp (by simpa [codes] using hnd)).1
      have hfxs : findOne xs c = none := (findOne_eq_none_iff xs c).mpr hxs
      simp only [clicksOf, findOne_cons, if_pos hx, Option.map_some',
        Option.some.injEq] at h
      by_cases hu : x.user = user
      · have hdel : deleteFirst (x :: xs) c user = xs := by
          simp [deleteFirst, hx, hu]
        rw [hdel, clicksOf, hfxs] at h'
        simp at h'
      · have hdel : deleteFirst (x :: xs) c user = x :: deleteFirst xs c user := by
          simp [deleteFirst, hx, hu]
        rw [hdel] at h'
        simp only [clicksOf, findOne_cons, if_pos hx, Option.map_some',
          Option.some.injEq] at h'
        omega
    · have hdel : deleteFirst (x :: xs) c user = x :: deleteFirst xs c user := by
        simp [deleteFirst, hx]
      rw [hdel] at h'
      simp only [clicksOf, findOne_cons, if_neg hx] at h h'
      exact ih hnd' h h'

theorem clicksOf_deleteFirst_of_ne {s : Store} {c code : String} (user : String)
    (h : code ≠ c) :
    clicksOf (deleteFirst s code user) c = clicksOf s c := by
  rw [clicksOf, clicksOf, findOne_deleteFirst_of_ne user h]

/-! ## The uniqueness invariant -/

theorem codes_nodup_createIfAvailable {s : Store} (fu c u : String)
    (h : (codes s).Nodup) : (codes (createIfAvailable s fu c u)).Nodup := by
  rw [createIfAvailable]
  by_cases hf : (findOne s c).isSome
  · simp [hf, h]
  · rw [if_neg hf, codes_createLink]
    have hmem : c ∉ codes s :=
      (findOne_eq_none_iff s c).mp (Option.not_isSome_iff_eq_none.mp hf)
    simp [List.nodup_append, h, hmem]

theorem codes_nodup_deleteFirst {s : Store} (c u : String)
    (h : (codes s).Nodup) : (codes (deleteFirst s c u)).Nodup :=
  List.Nodup.sublist (List.Sublist.map _ (deleteFirst_sublist s c u)) h

theorem codes_nodup_applyOp {s : Store} (op : Op) (h : (codes s).Nodup) :
    (codes (applyOp s op)).Nodup := by
  cases op with
  | shortenOp fu cu u r =>
    rcases shorten_store_cases s fu u cu r with hc | ⟨c, hnone, hc⟩
    · rw [applyOp, hc]; exact h
    · rw [applyOp, hc, codes_createLink]
      have hmem : c ∉ codes s := (findOne_eq_none_iff s c).mp hnone
      simp [List.nodup_append, h, hmem]
  | resolveOp code =>
    rw [applyOp, codes_resolveAndCount]; exact h
  | deleteOp code user => exact codes_nodup_deleteFirst code user h
  | listOp u => exact h

theorem codes_nodup_run (ops : List Op) : (codes (run ops)).Nodup := by
  rw [run]
  have hstep : ∀ s : Store, (codes s).Nodup →
      (codes (ops.foldl applyOp s)).Nodup := by
    induction ops with
    | nil => intro s h; exact h
    | cons op ops ih =>
      intro s h
      exact ih _ (codes_nodup_applyOp op h)
  exact hstep [] (by simp [codes])

theorem codes_nodup_applyEvent {s : Store} (e : StoreEvent)
    (h : (codes s).Nodup) : (codes (applyEvent s e)).Nodup := by
  cases e with
  | findEv c => exact h
  | createEv fu c u => exact codes_nodup_createIfAvailable fu c u h
  | incEv c => rw [applyEvent, codes_incClicksFirst]; exact h
  | deleteEv c u => exact codes_nodup_deleteFirst c u h

theorem codes_nodup_runEvents {s : Store} (evts : List StoreEvent)
    (h : (codes s).Nodup) : (codes (runEvents s evts)).Nodup := by
  induction evts generalizing s with
  | nil => exact h
  | cons e evts ih => exact ih (codes_nodup_applyEvent e h)

/-! ## Concurrent interleavings of redirects -/

theorem resolveAndCount_eq_events (s : Store) (c : String) :
    (resolveAndCount s c).2 =
      runEvents s [StoreEvent.findEv c, StoreEvent.incEv c] := by
  rw [resolveAndCount]
  cases h : findOne s c with
  | none => simp [runEvents, applyEvent, incClicksFirst_of_none h]
  | some l => simp [runEvents, applyEvent]

theorem clicksOf_runEvents_incs {c : String} :
    ∀ {evts : List StoreEvent} {s : Store} {n : Nat},
      clicksOf s c = some n →
      (∀ e ∈ evts, e = StoreEvent.findEv c ∨ e = StoreEvent.incEv c) →
      clicksOf (runEvents s evts) c =
        some (n + evts.countP (fun e => e == StoreEvent.incEv c)) := by
  intro evts
  induction evts with
  | nil => intro s n h _; simpa [runEvents] using h
  | cons e evts ih =>
    intro s n h honly
    have htail : ∀ e ∈ evts, e = StoreEvent.findEv c ∨ e = StoreEvent.incEv c :=
      fun e he => honly e (List.mem_cons_of_mem _ he)
    rcases honly e (List.mem_cons_self e evts) with rfl | rfl
    · have hstep : runEvents s (StoreEvent.findEv c :: evts) = runEvents s evts := rfl
      rw [hstep, ih h htail]
      congr 1
    · have hstep : runEvents s (StoreEvent.incEv c :: evts) =
          runEvents (incClicksFirst s c) evts := rfl
      rw [hstep, ih (clicksOf_incClicksFirst_self h) htail]
      congr 1
      rw [List.countP_cons]
      simp
      omega


/-! ## Settled claims -/

/-- Claim C1: the specified alias policy accepts "ab" and "my_link-1" and
rejects "a" (too short), "admin" (reserved), a 21-character alias (too
long) and "bad alias!" (bad character); the custom-alias path of
`POST /shorten` performs no such validation and creates a Link for every
one of the rejected aliases, so no `InvalidAlias`/`ReservedAlias`
failure can occur. -/
theorem custom_alias_policy_not_enforced :
    aliasPolicyOk "ab" = true ∧ aliasPolicyOk "my_link-1" = true ∧
    aliasPolicyOk "a" = false ∧ aliasPolicyOk "admin" = false ∧
    aliasPolicyOk "aaaaaaaaaaaaaaaaaaaaa" = false ∧
    aliasPolicyOk "bad alias!" = false ∧
    (shorten [] "https://example.com" (some "a") "u1" rZero).1 =
      ShortenResult.created "a" ∧
    (shorten [] "https://example.com" (some "admin") "u1" rZero).1 =
      ShortenResult.created "admin" ∧
    (shorten [] "https://example.com" (some "aaaaaaaaaaaaaaaaaaaaa") "u1" rZero).1 =
      ShortenResult.created "aaaaaaaaaaaaaaaaaaaaa" ∧
    (shorten [] "https://example.com" (some "bad alias!") "u1" rZero).1 =
      ShortenResult.created "bad alias!" := by
  decide

/-- Claim C4: the specified target-URL policy rejects "not a url" (malformed)
and "ftp://example.com" (disallowed scheme); `POST /shorten` only checks
that `fullUrl` is non-empty, so it creates a Link for both instead of
failing with `InvalidTargetUrl`. -/
theorem target_url_not_validated :
    validTargetUrlSpec "not a url" = false ∧
    validTargetUrlSpec "ftp://example.com" = false ∧
    shorten [] "not a url" none "u1" rZero =
      (ShortenResult.created "AAAAAA",
        [{ fullUrl := "not a url", shortUrl := "AAAAAA", user := "u1", clicks := 0 }]) ∧
    shorten [] "ftp://example.com" none "u1" rZero =
      (ShortenResult.created "AAAAAA",
        [{ fullUrl := "ftp://example.com", shortUrl := "AAAAAA", user := "u1", clicks := 0 }]) ∧
    shorten [] "" none "u1" rZero = (ShortenResult.missingUrl, []) := by
  decide

/-- Claim C2: the random path performs at most 5 generate-then-check attempts:
if all 5 candidates are taken it fails with exhaustion, store unchanged;
the first available candidate among the 5 is the one claimed; and the
outcome depends only on the 30 random draws behind the first 5
candidates, so no 6th candidate is generated or checked. -/
theorem random_path_bounded_retry (s : Store) (fu u : String)
    (r r' : Nat → Fin 62) (hfu : fu ≠ "") :
    ((∀ k, k < 5 → (findOne s (generateCode r k)).isSome) →
      shorten s fu none u r = (ShortenResult.exhausted, s)) ∧
    (∀ k, k < 5 → (findOne s (generateCode r k)).isSome = false →
      (∀ j, j < k → (findOne s (generateCode r j)).isSome) →
      shorten s fu none u r =
        (ShortenResult.created (generateCode r k), createLink s fu (generateCode r k) u)) ∧
    ((∀ i, i < 30 → r i = r' i) →
      shorten s fu none u r = shorten s fu none u r') := by
  refine ⟨?_, ?_, ?_⟩
  · intro h
    refine shorten_random_exhausted hfu rfl (tryAttempts_none_of_taken ?_)
    intro k hk
    simpa using h k hk
  · intro k hk ha ht
    have hfirst := tryAttempts_first (f := 5) (a := 0) (k := k) hk
      (by simpa using ha) (fun j hj => by simpa using ht j hj)
    refine shorten_random_created hfu rfl ?_
    simpa using hfirst
  · intro h
    have hcong : tryAttempts s r 0 5 = tryAttempts s r' 0 5 :=
      tryAttempts_congr (fun i h1 h2 => h i (by omega))
    simp only [shorten, if_neg hfu, trimmedAlias]
    rw [hcong]

/-- Witness for C2 at concrete inputs: with the constant random source
every candidate is "AAAAAA", so a store already holding "AAAAAA"
exhausts all 5 attempts, while the empty store accepts the first
candidate. -/
theorem random_path_bounded_retry_witness :
    shorten [{ fullUrl := "https://x.com", shortUrl := "AAAAAA", user := "u1", clicks := 0 }]
        "https://y.com" none "u2" rZero =
      (ShortenResult.exhausted,
        [{ fullUrl := "https://x.com", shortUrl := "AAAAAA", user := "u1", clicks := 0 }]) ∧
    shorten [] "https://y.com" none "u2" rZero =
      (ShortenResult.created "AAAAAA", createLink [] "https://y.com" "AAAAAA" "u2") := by
  constructor
  · exact (random_path_bounded_retry
      [{ fullUrl := "https://x.com", shortUrl := "AAAAAA", user := "u1", clicks := 0 }]
      "https://y.com" "u2" rZero rZero (by decide)).1 (by decide)
  · have h := (random_path_bounded_retry [] "https://y.com" "u2" rZero rZero
      (by decide)).2.1 0 (by decide) (by decide) (by decide)
    have hg : generateCode rZero 0 = "AAAAAA" := by decide
    rw [hg] at h
    exact h

/-- Claim C3: `resolveAndCount` returns `NotFound` exactly when no Link with
the code is stored, and then leaves the store (hence every clickCount)
unchanged; when a Link with the code exists it returns that Link's
target URL, increments exactly that Link's clickCount by 1, and leaves
every other code's clickCount unchanged. -/
theorem resolveAndCount_notFound_and_increment (s : Store) (c : String) :
    ((resolveAndCount s c).1 = ResolveResult.notFound ↔ c ∉ codes s) ∧
    (c ∉ codes s → (resolveAndCount s c).2 = s) ∧
    (∀ l, findOne s c = some l →
      (resolveAndCount s c).1 = ResolveResult.redirect l.fullUrl ∧
      clicksOf (resolveAndCount s c).2 c = some (l.clicks + 1) ∧
      ∀ c2, c2 ≠ c → clicksOf (resolveAndCount s c).2 c2 = clicksOf s c2) := by
  cases hf : findOne s c with
  | none =>
    have hmem : c ∉ codes s := (findOne_eq_none_iff s c).mp hf
    have hr : resolveAndCount s c = (ResolveResult.notFound, s) := by
      rw [resolveAndCount, hf]
    refine ⟨by simp [hr, hmem], fun _ => by rw [hr], fun l hl => ?_⟩
    simp at hl
  | some l0 =>
    have hmem : c ∈ codes s := by
      by_contra hc
      rw [(findOne_eq_none_iff s c).mpr hc] at hf
      cases hf
    have hr : resolveAndCount s c =
        (ResolveResult.redirect l0.fullUrl, incClicksFirst s c) := by
      rw [resolveAndCount, hf]
    refine ⟨by simp [hr, hmem], fun h => absurd hmem h, fun l hl => ?_⟩
    injection hl with hl
    subst hl
    refine ⟨by simp [hr], ?_, ?_⟩
    · rw [hr]
      exact clicksOf_incClicksFirst_self (by rw [clicksOf, hf]; rfl)
    · intro c2 hc2
      rw [hr]
      exact clicksOf_incClicksFirst_of_ne (Ne.symm hc2)

/-- Witness for C3 at concrete inputs: an unknown code is NotFound and
changes nothing; a stored code redirects and its count goes from 3
to 4 while another code's count is untouched. -/
theorem resolveAndCount_notFound_and_increment_witness :
    (resolveAndCount
      [{ fullUrl := "https://x.com", shortUrl := "ab", user := "u1", clicks := 3 }]
      "zz").2 =
      [{ fullUrl := "https://x.com", shortUrl := "ab", user := "u1", clicks := 3 }] ∧
    clicksOf (resolveAndCount
      [{ fullUrl := "https://x.com", shortUrl := "ab", user := "u1", clicks := 3 }]
      "ab").2 "ab" = some 4 := by
  constructor
  · exact (resolveAndCount_notFound_and_increment
      [{ fullUrl := "https://x.com", shortUrl := "ab", user := "u1", clicks := 3 }]
      "zz").2.1 (by decide)
  · exact ((resolveAndCount_notFound_and_increment
      [{ fullUrl := "https://x.com", shortUrl := "ab", user := "u1", clicks := 3 }]
      "ab").2.2
      { fullUrl := "https://x.com", shortUrl := "ab", user := "u1", clicks := 3 }
      (by decide)).2.1


/-- Claim C5: uniqueness of codes: every sequential run of the system from the
empty store keeps all stored codes pairwise distinct, and at the level of
atomic store events (where the `unique: true` index arbitrates concurrent
creates) every interleaving preserves pairwise distinctness. -/
theorem codes_unique_invariant :
    (∀ ops : List Op, (codes (run ops)).Nodup) ∧
    (∀ (s : Store) (evts : List StoreEvent), (codes s).Nodup →
      (codes (runEvents s evts)).Nodup) :=
  ⟨codes_nodup_run, fun _ evts h => codes_nodup_runEvents evts h⟩

/-- Witness for C5 at concrete inputs: a custom and a random allocation,
and an interleaving with two concurrent creates of the same code. -/
theorem codes_unique_invariant_witness :
    (codes (run [Op.shortenOp "https://x.com" (some "ab") "u1" rZero,
                 Op.shortenOp "https://y.com" none "u2" rZero])).Nodup ∧
    (codes (runEvents []
      [StoreEvent.createEv "https://x.com" "ab" "u1",
       StoreEvent.createEv "https://y.com" "ab" "u2",
       StoreEvent.incEv "ab"])).Nodup :=
  ⟨codes_unique_invariant.1 _, codes_unique_invariant.2 [] _ (by decide)⟩

/-- Claim C6: a Link's clickCount is 0 at creation; under every core operation
an existing Link's count never decreases; and every operation other than
the redirect handler leaves it exactly unchanged. -/
theorem clicks_start_zero_monotone_redirect_only :
    (∀ (s : Store) (fu : String) (cu : Option String) (u c : String)
        (r : Nat → Fin 62) (s' : Store),
        shorten s fu cu u r = (ShortenResult.created c, s') →
        clicksOf s' c = some 0) ∧
    (∀ (op : Op) (s : Store) (c : String) (n n' : Nat), (codes s).Nodup →
        clicksOf s c = some n → clicksOf (applyOp s op) c = some n' →
        n ≤ n' ∧ ((∀ code, op ≠ Op.resolveOp code) → n' = n)) := by
  constructor
  · intro s fu cu u c r s' h
    obtain ⟨hfu, hnone, rfl⟩ := shorten_created_inv h
    rw [clicksOf, findOne_createLink_self fu u hnone]
    rfl
  · intro op s c n n' hnd h h'
    cases op with
    | shortenOp fu cu u r =>
      have heq : clicksOf (applyOp s (Op.shortenOp fu cu u r)) c = clicksOf s c := by
        rcases shorten_store_cases s fu u cu r with hc | ⟨c2, hnone, hc⟩
        · show clicksOf (shorten s fu cu u r).2 c = clicksOf s c
          rw [hc]
        · have hne : c2 ≠ c := by
            intro he
            rw [he] at hnone
            rw [clicksOf, hnone] at h
            simp at h
          show clicksOf (shorten s fu cu u r).2 c = clicksOf s c
          rw [hc]
          exact clicksOf_createLink_of_ne fu u hne
      rw [heq, h] at h'
      injection h' with h'
      exact ⟨by omega, fun _ => by omega⟩
    | resolveOp code =>
      refine ⟨?_, fun hne => absurd rfl (hne code)⟩
      by_cases hcode : code = c
      · subst hcode
        have happ : applyOp s (Op.resolveOp code) = (resolveAndCount s code).2 := rfl
        cases hfkind : findOne s code with
        | none =>
          rw [clicksOf, hfkind] at h
          simp at h
        | some l =>
          have hsnd : (resolveAndCount s code).2 = incClicksFirst s code := by
            rw [resolveAndCount, hfkind]
          rw [happ, hsnd, clicksOf_incClicksFirst_self h] at h'
          injection h' with h'
          omega
      · have heq : clicksOf (applyOp s (Op.resolveOp code)) c = clicksOf s c := by
          show clicksOf (resolveAndCount s code).2 c = clicksOf s c
          cases hfkind : findOne s code with
          | none => rw [resolveAndCount, hfkind]
          | some l =>
            have hsnd : (resolveAndCount s code).2 = incClicksFirst s code := by
              rw [resolveAndCount, hfkind]
            rw [hsnd]
            exact clicksOf_incClicksFirst_of_ne hcode
        rw [heq, h] at h'
        injection h' with h'
        omega
    | deleteOp code user =>
      have hn : n' = n := by
        by_cases hcode : code = c
        · subst hcode
          exact clicksOf_deleteFirst_self hnd h h'
        · have heq : clicksOf (applyOp s (Op.deleteOp code user)) c = clicksOf s c := by
            show clicksOf (deleteFirst s code user) c = clicksOf s c
            exact clicksOf_deleteFirst_of_ne user hcode
          rw [heq, h] at h'
          injection h' with h'
          omega
      exact ⟨by omega, fun _ => hn⟩
    | listOp u =>
      have happ : applyOp s (Op.listOp u) = s := rfl
      rw [happ, h] at h'
      injection h' with h'
      exact ⟨by omega, fun _ => by omega⟩

/-- Witness for C6 at concrete inputs: a fresh custom allocation starts
at 0 clicks, and a redirect takes an existing count from 3 to 4. -/
theorem clicks_start_zero_monotone_redirect_only_witness :
    clicksOf (createLink [] "https://x.com" "ab" "u1") "ab" = some 0 ∧ 3 ≤ 4 := by
  constructor
  · exact clicks_start_zero_monotone_redirect_only.1 [] "https://x.com" (some "ab")
      "u1" "ab" rZero (createLink [] "https://x.com" "ab" "u1") (by decide)
  · exact (clicks_start_zero_monotone_redirect_only.2 (Op.resolveOp "ab")
      [{ fullUrl := "https://x.com", shortUrl := "ab", user := "u1", clicks := 3 }]
      "ab" 3 4 (by decide) (by decide) (by decide)).1

/-- Claim C7: once a custom alias has been claimed, a second `POST /shorten`
with the same custom alias fails with `AliasTaken`, and the failed call
returns the store exactly as it was, so no Link is created and the
existing Link is untouched. -/
theorem second_custom_allocate_alias_taken :
    ∀ (s s' : Store) (fu fu2 u u2 a c : String) (r r2 : Nat → Fin 62),
      fu2 ≠ "" → jsTrim a ≠ "" →
      shorten s fu (some a) u r = (ShortenResult.created c, s') →
      shorten s' fu2 (some a) u2 r2 = (ShortenResult.aliasTaken, s') := by
  intro s s' fu fu2 u u2 a c r r2 hfu2 ha h
  have hta : trimmedAlias (some a) = some (jsTrim a) := by
    simp [trimmedAlias, ha]
  by_cases hfu0 : fu = ""
  · rw [shorten, if_pos hfu0] at h
    simp at h
  · by_cases hf : (findOne s (jsTrim a)).isSome
    · rw [shorten_custom_taken hfu0 hta hf] at h
      simp at h
    · have hnone := Option.not_isSome_iff_eq_none.mp hf
      rw [shorten_custom_available hfu0 hta hnone] at h
      simp only [Prod.mk.injEq, ShortenResult.created.injEq] at h
      obtain ⟨rfl, rfl⟩ := h
      apply shorten_custom_taken hfu2 hta
      rw [findOne_createLink_self fu u hnone]
      rfl

/-- Witness for C7 at concrete inputs: claiming " ab " (stored as "ab")
and then asking for " ab " again fails with AliasTaken, store unchanged. -/
theorem second_custom_allocate_alias_taken_witness :
    shorten (createLink [] "https://x.com" "ab" "u1") "https://y.com" (some " ab ")
        "u2" rZero =
      (ShortenResult.aliasTaken, createLink [] "https://x.com" "ab" "u1") :=
  second_custom_allocate_alias_taken [] (createLink [] "https://x.com" "ab" "u1")
    "https://x.com" "https://y.com" "u1" "u2" " ab " "ab" rZero rZero
    (by decide) (by decide) (by decide)

/-- Claim C8: a successful random-path allocation returns a code of length 6
over the 62-symbol alphabet, and resolving that code against the
resulting store redirects to exactly the submitted target URL. -/
theorem random_roundtrip (s s' : Store) (fu u c : String) (r : Nat → Fin 62)
    (h : shorten s fu none u r = (ShortenResult.created c, s')) :
    c.length = 6 ∧ (∀ ch ∈ c.toList, ch ∈ chars.toList) ∧
    (resolveAndCount s' c).1 = ResolveResult.redirect fu := by
  obtain ⟨hfu, hnone, rfl⟩ := shorten_created_inv h
  have hta : trimmedAlias (none : Option String) = none := rfl
  rcases ht : tryAttempts s r 0 5 with _ | a
  · rw [shorten_random_exhausted hfu hta ht] at h
    simp at h
  · rw [shorten_random_created hfu hta ht] at h
    simp only [Prod.mk.injEq, ShortenResult.created.injEq] at h
    obtain ⟨rfl, -⟩ := h
    obtain ⟨-, k, -, -, hk⟩ := tryAttempts_some ht
    subst hk
    refine ⟨generateCode_length r k, fun ch hch => generateCode_mem_chars hch, ?_⟩
    simp [resolveAndCount, findOne_createLink_self fu u hnone]

/-- Witness for C8 at concrete inputs: the constant random source yields
"AAAAAA", which has length 6, is drawn from the alphabet, and resolves
back to the submitted URL. -/
theorem random_roundtrip_witness :
    "AAAAAA".length = 6 ∧ (∀ ch ∈ "AAAAAA".toList, ch ∈ chars.toList) ∧
    (resolveAndCount (createLink [] "https://x.com" "AAAAAA" "u1") "AAAAAA").1 =
      ResolveResult.redirect "https://x.com" :=
  random_roundtrip [] (createLink [] "https://x.com" "AAAAAA" "u1")
    "https://x.com" "u1" "AAAAAA" rZero (by decide)

/-- Claim C9: any interleaving of atomic store events arising from concurrent
redirects of one existing code (reads plus atomic `$inc` writes) leaves
its clickCount increased by exactly the number of `$inc` events, and a
`resolveAndCount` call on a present code is exactly one read followed by
one atomic `$inc` at store level. -/
theorem concurrent_clicks_sum_preserving (s : Store) (c : String) (n : Nat)
    (evts : List StoreEvent)
    (hn : clicksOf s c = some n)
    (honly : ∀ e ∈ evts, e = StoreEvent.findEv c ∨ e = StoreEvent.incEv c) :
    clicksOf (runEvents s evts) c =
      some (n + evts.countP (fun e => e == StoreEvent.incEv c)) ∧
    (resolveAndCount s c).2 = runEvents s [StoreEvent.findEv c, StoreEvent.incEv c] :=
  ⟨clicksOf_runEvents_incs hn honly, resolveAndCount_eq_events s c⟩

/-- Witness for C9 at concrete inputs: an interleaving of three redirects
on "ab" (three reads and three atomic increments, in mixed order) takes
the count from 0 to exactly 3. -/
theorem concurrent_clicks_sum_preserving_witness :
    clicksOf (runEvents
      [{ fullUrl := "https://x.com", shortUrl := "ab", user := "u1", clicks := 0 }]
      [StoreEvent.findEv "ab", StoreEvent.incEv "ab", StoreEvent.findEv "ab",
       StoreEvent.incEv "ab", StoreEvent.findEv "ab", StoreEvent.incEv "ab"]) "ab" =
      some 3 := by
  have h := (concurrent_clicks_sum_preserving
    [{ fullUrl := "https://x.com", shortUrl := "ab", user := "u1", clicks := 0 }]
    "ab" 0
    [StoreEvent.findEv "ab", StoreEvent.incEv "ab", StoreEvent.findEv "ab",
     StoreEvent.incEv "ab", StoreEvent.findEv "ab", StoreEvent.incEv "ab"]
    (by decide) (by decide)).1
  have hc : 0 + List.countP (fun e => e == StoreEvent.incEv "ab")
      [StoreEvent.findEv "ab", StoreEvent.incEv "ab", StoreEvent.findEv "ab",
       StoreEvent.incEv "ab", StoreEvent.findEv "ab", StoreEvent.incEv "ab"] = 3 := by
    decide
  rw [hc] at h
  exact h

/-- Claim C10: a custom alias that is empty or blank after trimming sends the
request down the random path exactly as if no alias had been supplied;
a non-blank alias is trimmed before the availability check and the
trimmed value is what gets stored as the code. -/
theorem blank_alias_random_and_trimming :
    (∀ (s : Store) (fu u a : String) (r : Nat → Fin 62), jsTrim a = "" →
      shorten s fu (some a) u r = shorten s fu none u r) ∧
    (∀ (s : Store) (fu u a : String) (r : Nat → Fin 62), jsTrim a ≠ "" → fu ≠ "" →
      (findOne s (jsTrim a) = none →
        shorten s fu (some a) u r =
          (ShortenResult.created (jsTrim a), createLink s fu (jsTrim a) u)) ∧
      ((findOne s (jsTrim a)).isSome →
        shorten s fu (some a) u r = (ShortenResult.aliasTaken, s))) := by
  constructor
  · intro s fu u a r h
    have hta : trimmedAlias (some a) = trimmedAlias none := by
      simp [trimmedAlias, h]
    simp only [shorten, hta]
  · intro s fu u a r ha hfu
    have hta : trimmedAlias (some a) = some (jsTrim a) := by
      simp [trimmedAlias, ha]
    exact ⟨fun hn => shorten_custom_available hfu hta hn,
           fun hs => shorten_custom_taken hfu hta hs⟩

/-- Witness for C10 at concrete inputs: an alias of one non-breaking
space (U+00A0) and one ASCII space is whitespace-only, so it behaves
like no alias; and " ab\u00A0" (space, "ab", non-breaking space) is
trimmed and stored as "ab". -/
theorem blank_alias_random_and_trimming_witness :
    shorten [] "https://x.com" (some "\u00A0 ") "u1" rZero =
      shorten [] "https://x.com" none "u1" rZero ∧
    shorten [] "https://x.com" (some " ab\u00A0") "u1" rZero =
      (ShortenResult.created "ab", createLink [] "https://x.com" "ab" "u1") := by
  constructor
  · exact blank_alias_random_and_trimming.1 [] "https://x.com" "u1" "\u00A0 " rZero
      (by decide)
  · have h := (blank_alias_random_and_trimming.2 [] "https://x.com" "u1" " ab\u00A0" rZero
      (by decide) (by decide)).1 (by decide)
    have hg : jsTrim " ab\u00A0" = "ab" := by decide
    rw [hg] at h
    exact h

end BEE
